import Mathlib

/-!
Verification of the apng streaming encoder (writer.go, filter/abs8 file).

Bytes are modelled as `Nat` values below 256; machine `uint8`/`uint32`
arithmetic is made explicit with `% 256` / `% 2^32`.  Rows and buffers are
`List Nat`.  The five PNG filter types keep their source names.
-/

namespace Apng

/-- Filter type constants, as in the source (`ftNone` .. `nFilter`). -/
def ftNone : Nat := 0

def ftSub : Nat := 1

def ftUp : Nat := 2

def ftAverage : Nat := 3

def ftPaeth : Nat := 4

def nFilter : Nat := 5

/-- `abs8` from the source: the absolute value of a byte interpreted as a
signed int8 (`if d < 128 { return int(d) }; return 256 - int(d)`). -/
def abs8 (d : Nat) : Nat :=
  if d < 128 then d else 256 - d

/-- Byte subtraction `a - b` in `uint8` arithmetic (wrap-around mod 256),
as performed by Go expressions such as `cdat0[i] - pdat[i]`. -/
def sub8 (a b : Nat) : Nat :=
  (a + 256 - b % 256) % 256

/-- Modelled from the spec: the Paeth predictor (the `paeth` function is
referenced by `filter` but its definition is not under src/).  It picks
whichever of {left `a`, above `b`, upper-left `c`} is closest to
`a + b - c` by absolute difference, ties broken in the preference order
left, above, upper-left. -/
def paeth (a b c : Nat) : Nat :=
  let p : Int := (a : Int) + (b : Int) - (c : Int)
  let pa := (p - (a : Int)).natAbs
  let pb := (p - (b : Int)).natAbs
  let pc := (p - (c : Int)).natAbs
  if pa ≤ pb ∧ pa ≤ pc then a
  else if pb ≤ pc then b
  else c

/-- Sum of `abs8` magnitudes of a byte list (the heuristic cost the
source accumulates in its `sum` variable). -/
def sumAbs (xs : List Nat) : Nat :=
  (xs.map abs8).sum

/-- Filtered bytes of the up filter: `cdat2[i] = cdat0[i] - pdat[i]`. -/
def upVals (c0 pd : List Nat) : List Nat :=
  (List.range c0.length).map fun i => sub8 (c0.getD i 0) (pd.getD i 0)

/-- Filtered bytes of the sub filter: `cdat1[i] = cdat0[i]` for `i < bpp`,
`cdat1[i] = cdat0[i] - cdat0[i-bpp]` otherwise. -/
def subVals (c0 : List Nat) (bpp : Nat) : List Nat :=
  (List.range c0.length).map fun i =>
    if i < bpp then c0.getD i 0 else sub8 (c0.getD i 0) (c0.getD (i - bpp) 0)

/-- Filtered bytes of the average filter: `cdat3[i] = cdat0[i] - pdat[i]/2`
for `i < bpp`, `cdat3[i] = cdat0[i] - (cdat0[i-bpp]+pdat[i])/2` otherwise. -/
def avgVals (c0 pd : List Nat) (bpp : Nat) : List Nat :=
  (List.range c0.length).map fun i =>
    if i < bpp then sub8 (c0.getD i 0) (pd.getD i 0 / 2)
    else sub8 (c0.getD i 0) ((c0.getD (i - bpp) 0 + pd.getD i 0) / 2)

/-- Filtered bytes of the Paeth filter: `cdat4[i] = cdat0[i] - pdat[i]` for
`i < bpp`, `cdat4[i] = cdat0[i] - paeth(cdat0[i-bpp], pdat[i], pdat[i-bpp])`
otherwise. -/
def paethVals (c0 pd : List Nat) (bpp : Nat) : List Nat :=
  (List.range c0.length).map fun i =>
    if i < bpp then sub8 (c0.getD i 0) (pd.getD i 0)
    else sub8 (c0.getD i 0) (paeth (c0.getD (i - bpp) 0) (pd.getD i 0) (pd.getD (i - bpp) 0))

/-- The filtered-byte list of rule `r` (0 = none, 1 = sub, 2 = up,
3 = average, 4 = paeth). -/
def filterVals (r : Nat) (c0 pd : List Nat) (bpp : Nat) : List Nat :=
  if r = ftSub then subVals c0 bpp
  else if r = ftUp then upVals c0 pd
  else if r = ftAverage then avgVals c0 pd bpp
  else if r = ftPaeth then paethVals c0 pd bpp
  else c0

/-- Full (no early-exit) sum of absolute signed-byte magnitudes of rule `r`,
as the tests would compute it. -/
def fullSum (r : Nat) (c0 pd : List Nat) (bpp : Nat) : Nat :=
  sumAbs (filterVals r c0 pd bpp)

/-- One no-abort filter loop (the `for i := 0; i < bpp` loops of the source):
overwrite the buffer positions with the value list, accumulating the
`abs8` sum; positions past the value list keep their old contents. -/
def fillAll : List Nat → List Nat → Nat → List Nat × Nat
  | old, [], acc => (old, acc)
  | [], _ :: _, acc => ([], acc)
  | _ :: or, x :: vr, acc =>
    let p := fillAll or vr (acc + abs8 x)
    (x :: p.1, p.2)

/-- One early-exit filter loop (the `for i := bpp; i < n` loops): write the
value, add its magnitude, and break as soon as the running sum reaches
`best` (`if sum >= best { break }`), leaving the rest of the buffer
untouched. -/
def fillLoop : List Nat → List Nat → Nat → Nat → List Nat × Nat
  | old, [], acc, _ => (old, acc)
  | [], _ :: _, acc, _ => ([], acc)
  | _ :: or, x :: vr, acc, best =>
    let acc2 := acc + abs8 x
    if best ≤ acc2 then (x :: or, acc2)
    else
      let p := fillLoop or vr acc2 best
      (x :: p.1, p.2)

/-- The early-exit sum loop of the none filter (no buffer writes). -/
def sumLoop : List Nat → Nat → Nat → Nat
  | [], acc, _ => acc
  | x :: rest, acc, best =>
    let acc2 := acc + abs8 x
    if best ≤ acc2 then acc2 else sumLoop rest acc2 best

/-- A full two-loop filter stage of the source: the first `bpp` positions are
written without an abort check, the remaining positions with the early
exit against `best`. -/
def fillStage (old vals : List Nat) (bpp best : Nat) : List Nat × Nat :=
  let h := fillAll (old.take bpp) (vals.take bpp) 0
  let t := fillLoop (old.drop bpp) (vals.drop bpp) h.2 best
  (h.1 ++ t.1, t.2)

/-- The four writable candidate buffers `cr[1]`..`cr[4]` (data part only,
i.e. the `cr[k][1:]` slices; `cr[0][1:]` is the raw row `cdat0`). -/
structure RowBufs where
  cr1 : List Nat
  cr2 : List Nat
  cr3 : List Nat
  cr4 : List Nat
deriving DecidableEq

/-- The `filter` function of the source, on the `[1:]` data slices: tries
the five filter types in the order up, paeth, none, sub, average, each
later candidate aborting its sum as soon as it reaches the current best
(`if sum >= best { break }`), keeps the earlier candidate on ties
(selection is by strict `sum < best`), and returns the chosen filter index
together with the buffers as left by the loops. -/
def filter (cdat0 pdat : List Nat) (bufs : RowBufs) (bpp : Nat) : Nat × RowBufs :=
  let r2 := fillAll bufs.cr2 (upVals cdat0 pdat) 0
  let best0 := r2.2
  let r4 := fillStage bufs.cr4 (paethVals cdat0 pdat bpp) bpp best0
  let best1 := if r4.2 < best0 then r4.2 else best0
  let f1 := if r4.2 < best0 then ftPaeth else ftUp
  let sumN := sumLoop cdat0 0 best1
  let best2 := if sumN < best1 then sumN else best1
  let f2 := if sumN < best1 then ftNone else f1
  let r1 := fillStage bufs.cr1 (subVals cdat0 bpp) bpp best2
  let best3 := if r1.2 < best2 then r1.2 else best2
  let f3 := if r1.2 < best2 then ftSub else f2
  let r3 := fillStage bufs.cr3 (avgVals cdat0 pdat bpp) bpp best3
  let f4 := if r3.2 < best3 then ftAverage else f3
  (f4, ⟨r1.1, r2.1, r3.1, r4.1⟩)

/-- One step of undoing a filter rule: the reconstructed row so far is
`acc`; the next raw byte is the filtered byte plus the rule's prediction
(left / above / average / Paeth, out-of-range neighbours taken as 0),
modulo 256. -/
def unfilterStep (r : Nat) (prev : List Nat) (bpp : Nat) (acc : List Nat) (x : Nat) : List Nat :=
  let i := acc.length
  let left := if i < bpp then 0 else acc.getD (i - bpp) 0
  let above := prev.getD i 0
  let upleft := if i < bpp then 0 else prev.getD (i - bpp) 0
  let pred :=
    if r = ftNone then 0
    else if r = ftSub then left
    else if r = ftUp then above
    else if r = ftAverage then (left + above) / 2
    else paeth left above upleft
  acc ++ [(x + pred) % 256]

/-- Undo filter rule `r` on a filtered row. -/
def unfilterRow (r : Nat) (prev : List Nat) (bpp : Nat) (xs : List Nat) : List Nat :=
  xs.foldl (unfilterStep r prev bpp) []

/-- `SequenceNumbers.Next` from the source: `tmp := uint32(*s); *s++; return tmp`.
The state is a `uint32`, so the increment wraps modulo `2^32`. -/
def seqNext (s : Nat) : Nat × Nat :=
  (s, (s + 1) % 2 ^ 32)

/-- The values handed out by `k` successive `Next` calls starting from
state `s`, in draw order. -/
def seqDraws : Nat → Nat → List Nat
  | 0, _ => []
  | k + 1, s => (seqNext s).1 :: seqDraws k (seqNext s).2

/-- `Chunk_fdAT` from the source: a sequence number followed by the wrapped
image-data payload. -/
structure Chunk_fdAT where
  seqNum : Nat
  idat : List Nat
deriving DecidableEq

/-- `Encoder_fdAT.Chunk` from the source: materializing a frame-data chunk
draws exactly one sequence number (`SequenceNumber: e.seq.Next()`) and wraps
the current image-data bytes. -/
def fdATChunk (s : Nat) (idat : List Nat) : Chunk_fdAT × Nat :=
  (⟨(seqNext s).1, idat⟩, (seqNext s).2)

/-- An `atom` from the source: one unit of compressed bytes, or an error,
sent over the channel from the background task to the consumer. -/
structure Atom where
  buf : List Nat
  err : Option Nat
deriving DecidableEq

/-- Consumer-visible state of an `Encoder_IDAT`: the atoms the background
task will still deliver, in order (the channel being closed after the last
one), and the current atom `e.a` (`none` models Go's nil pointer). -/
structure EncState where
  pending : List Atom
  a : Option Atom
deriving DecidableEq

/-- `Encoder_IDAT.Err` from the source: `if e.a != nil && e.a.err != nil
{ return e.a.err }; return nil`. -/
def encErr (s : EncState) : Option Nat :=
  match s.a with
  | some a => a.err
  | none => none

/-- `Encoder_IDAT.Next` from the source: returns false immediately when
`Err()` is non-nil; otherwise receives the next atom (`e.a, ok = <-e.aw`),
a receive on the closed, drained channel yielding the nil atom and
`ok = false`. -/
def encNext (s : EncState) : Bool × EncState :=
  match encErr s with
  | some _ => (false, s)
  | none =>
    match s.pending with
    | [] => (false, { pending := [], a := none })
    | x :: rest => (true, { pending := rest, a := some x })

/-- `Chunk_IHDR` fields, as in the source (widths are uint32, the five
trailing fields single bytes). -/
structure Chunk_IHDR where
  width : Nat
  height : Nat
  bitDepth : Nat
  colorType : Nat
  compressionMethod : Nat
  filterMethod : Nat
  interlaceMethod : Nat
deriving DecidableEq

/-- ColorType constants from the source. -/
def ColorType_Grayscale : Nat := 0

def ColorType_TrueColor : Nat := 2

def ColorType_Paletted : Nat := 3

def ColorType_GrayscaleAlpha : Nat := 4

def ColorType_TrueColorAlpha : Nat := 6

/-- The `cb*` color-type/bit-depth combination codes (the source's iota
block, `cbInvalid = 0` first). -/
def cbInvalid : Nat := 0

def cbG8 : Nat := 4

def cbGA8 : Nat := 5

def cbTC8 : Nat := 6

def cbP8 : Nat := 10

def cbTCA8 : Nat := 11

def cbG16 : Nat := 12

def cbTC16 : Nat := 14

def cbTCA16 : Nat := 15

/-- `Chunk_IHDR.cb` from the source: the switch classifying the
(color type, bit depth) pair, falling through to `cbInvalid`. -/
def cb (c : Chunk_IHDR) : Nat :=
  if c.colorType = ColorType_Grayscale ∧ c.bitDepth = 8 then cbG8
  else if c.colorType = ColorType_TrueColor ∧ c.bitDepth = 8 then cbTC8
  else if c.colorType = ColorType_Paletted ∧ c.bitDepth = 8 then cbP8
  else if c.colorType = ColorType_TrueColorAlpha ∧ c.bitDepth = 8 then cbTCA8
  else if c.colorType = ColorType_TrueColor ∧ c.bitDepth = 16 then cbTC16
  else if c.colorType = ColorType_TrueColorAlpha ∧ c.bitDepth = 16 then cbTCA16
  else if c.colorType = ColorType_Grayscale ∧ c.bitDepth = 16 then cbG16
  else cbInvalid

/-- `CompressionLevel.zlib` from the source: DefaultCompression (0) ↦ −1,
NoCompression (−1) ↦ 0, BestSpeed (−2) ↦ 1, BestCompression (−3) ↦ 9,
anything else ↦ −1 (the default case). -/
def zlibLevel (cl : Int) : Int :=
  if cl = 0 then -1
  else if cl = -1 then 0
  else if cl = -2 then 1
  else if cl = -3 then 9
  else -1

/-- Modelled from the spec: `zlib.NewWriterLevel` (outside src/) fails
exactly when the requested level is outside −2..9. -/
def zlibNewWriterLevelErr (lvl : Int) : Option Nat :=
  if lvl < -2 ∨ 9 < lvl then some 1 else none

/-- `NewEncoder_IDAT` from the source, as the encoder state it hands the
consumer.  The function performs no validation of `c.cb()` and has no
synchronous error path: it always starts the background task and returns
an encoder.  The task first constructs the zlib writer — on failure it
delivers that error as an atom and stops — and otherwise runs `writeImage`
(whose delivered data atoms are abstracted as `body`) and closes the
channel. -/
def newEncoderIDAT (c : Chunk_IHDR) (cl : Int) (body : List Atom) : EncState :=
  match zlibNewWriterLevelErr (zlibLevel cl) with
  | some e => { pending := [⟨[], some e⟩], a := none }
  | none => { pending := body, a := none }

/-- Modelled from the spec: the bounded internal buffer in front of the
consumer hand-off (`bufio.NewWriterSize(aw, 1<<15)`, outside src/): bytes
accumulate in `buffered`, and once at least `cap` bytes are available full
units of exactly `cap` bytes are handed off (appended to `delivered`);
only an explicit flush or close hands off a partial unit. -/
structure BufferedSink where
  buffered : List Nat
  delivered : List (List Nat)
deriving DecidableEq

/-- Split leading full units of size `cap` off a buffer (`fuel` bounds the
recursion; callers pass the buffer length). -/
def splitUnitsAux (cap : Nat) : Nat → List Nat → List (List Nat) × List Nat
  | 0, buf => ([], buf)
  | fuel + 1, buf =>
    if 0 < cap ∧ cap ≤ buf.length then
      let p := splitUnitsAux cap fuel (buf.drop cap)
      (buf.take cap :: p.1, p.2)
    else ([], buf)

/-- One write into the buffered sink. -/
def bwWrite (cap : Nat) (st : BufferedSink) (p : List Nat) : BufferedSink :=
  let buf := st.buffered ++ p
  let u := splitUnitsAux cap buf.length buf
  { buffered := u.2, delivered := st.delivered ++ u.1 }

/-- The goroutine body of `NewEncoder_IDAT` (writer.go lines 331–342): each
span of coder output is written into the buffered sink, and afterwards the
goroutine only runs `close(aw)` — it contains no `z.Close()` and no flush
of the bufio writer, so whatever remains buffered is dropped. -/
def producerDelivered (cap : Nat) (outs : List (List Nat)) : List (List Nat) :=
  (outs.foldl (bwWrite cap) ⟨[], []⟩).delivered

/-- Modelled from the spec: what §4.5 prescribes instead — on completion
the coder is closed, flushing any partial buffered unit to the consumer. -/
def producerDeliveredFlushed (cap : Nat) (outs : List (List Nat)) : List (List Nat) :=
  let st := outs.foldl (bwWrite cap) ⟨[], []⟩
  st.delivered ++ (if st.buffered = [] then [] else [st.buffered])

/-- Big-endian `writeUint32` from the source, as the 4 bytes it stores. -/
def writeUint32 (u : Nat) : List Nat :=
  [u / 2 ^ 24 % 256, u / 2 ^ 16 % 256, u / 2 ^ 8 % 256, u % 256]

/-- Big-endian decoding of a 4-byte span (for stating length correctness). -/
def readUint32 (bs : List Nat) : Nat :=
  bs.getD 0 0 * 2 ^ 24 + bs.getD 1 0 * 2 ^ 16 + bs.getD 2 0 * 2 ^ 8 + bs.getD 3 0

/-- Modelled from the spec: one bit step of the standard CRC-32 (IEEE)
with the reflected polynomial 0xEDB88320 (`hash/crc32` is outside src/). -/
def crcStep (c : Nat) : Nat :=
  if c % 2 = 1 then Nat.xor (c / 2) 0xEDB88320 else c / 2

/-- Modelled from the spec: folding one byte into the CRC-32 state. -/
def crcByte (c b : Nat) : Nat :=
  crcStep^[8] (Nat.xor c b)

/-- Modelled from the spec: the standard 32-bit CRC (IEEE) of a byte
sequence, init and final complement 0xFFFFFFFF, as computed by
`crc32.NewIEEE()` plus `Write` plus `Sum32()`. -/
def crc32 (data : List Nat) : Nat :=
  Nat.xor (data.foldl crcByte 0xFFFFFFFF) 0xFFFFFFFF

/-- The outcome a destination prescribes for one `Write` call: accept all
of it, or accept only `k` bytes and return error `e` (per the io.Writer
contract an error is returned exactly when not all bytes were written). -/
inductive WOutcome where
  | ok : WOutcome
  | fail : Nat → Nat → WOutcome
deriving DecidableEq

/-- A destination writer: prescribed outcomes of successive `Write` calls
(exhausted outcomes accept everything), the payloads of the calls issued
so far, and the bytes actually received. -/
structure Writer where
  outcomes : List WOutcome
  calls : List (List Nat)
  emitted : List Nat
deriving DecidableEq

/-- One `w.Write(p)` call: reported byte count, error, updated writer. -/
def wWrite (w : Writer) (p : List Nat) : Nat × Option Nat × Writer :=
  match w.outcomes with
  | [] => (p.length, none, ⟨[], w.calls ++ [p], w.emitted ++ p⟩)
  | WOutcome.ok :: rest => (p.length, none, ⟨rest, w.calls ++ [p], w.emitted ++ p⟩)
  | WOutcome.fail k e :: rest =>
    (min k p.length, some e, ⟨rest, w.calls ++ [p], w.emitted ++ p.take k⟩)

/-- The tag bytes `name[0] .. name[3]` read by `writeChunkTo`. -/
def tag4 (name : List Nat) : List Nat :=
  [name.getD 0 0, name.getD 1 0, name.getD 2 0, name.getD 3 0]

/-- The 8-byte chunk header: 4-byte big-endian payload length
(`uint32(len(b))`, i.e. modulo `2^32`) then the 4 tag bytes. -/
def chunkHeader (name b : List Nat) : List Nat :=
  writeUint32 (b.length % 2 ^ 32) ++ tag4 name

/-- The 4-byte footer: big-endian CRC-32 over the tag bytes followed by the
payload (`crc.Write(header[4:8]); crc.Write(b)`) — and nothing else. -/
def chunkFooter (name b : List Nat) : List Nat :=
  writeUint32 (crc32 (tag4 name ++ b))

/-- The three Write payloads of `writeChunkTo`, in order. -/
def chunkCalls (name b : List Nat) : List (List Nat) :=
  [chunkHeader name b, b, chunkFooter name b]

/-- The full wire image of a chunk. -/
def chunkBytes (name b : List Nat) : List Nat :=
  chunkHeader name b ++ b ++ chunkFooter name b

/-- `writeChunkTo` from the source: build the header and CRC footer, then
issue three sequential writes (header, payload, footer), aborting
immediately on the first error and returning the reported running total
together with that error. -/
def writeChunkTo (name b : List Nat) (w : Writer) : Nat × Option Nat × Writer :=
  let r1 := wWrite w (chunkHeader name b)
  match r1.2.1 with
  | some e => (r1.1, some e, r1.2.2)
  | none =>
    let r2 := wWrite r1.2.2 b
    match r2.2.1 with
    | some e => (r1.1 + r2.1, some e, r2.2.2)
    | none =>
      let r3 := wWrite r2.2.2 (chunkFooter name b)
      (r1.1 + r2.1 + r3.1, r3.2.1, r3.2.2)

/-- An `image.NRGBA`: contiguous native non-premultiplied RGBA storage.
Row index `r` and column `cx` below are relative to `Bounds().Min`,
matching the source's `y - b.Min.Y` and `x - b.Min.X`. -/
structure NRGBAImage where
  pix : List Nat
  stride : Nat
  dx : Nat
deriving DecidableEq

/-- The cbTCA8 fast path of `writeImage` (writer.go 554–557): the row is
copied verbatim, `copy(cr[0][1:], nrgba.Pix[offset : offset+b.Dx()*4])`
with `offset = r*Stride`. -/
def fastRowTCA8 (img : NRGBAImage) (r : Nat) : List Nat :=
  (img.pix.drop (r * img.stride)).take (img.dx * 4)

/-- Modelled from the spec: `image.NRGBA.At` (outside src/) returns the 4
bytes at `PixOffset = r*Stride + cx*4`, and `color.NRGBAModel.Convert`
returns an NRGBA sample unchanged (it is already non-premultiplied). -/
def atNRGBA (img : NRGBAImage) (r cx : Nat) : Nat × Nat × Nat × Nat :=
  (img.pix.getD (r * img.stride + cx * 4) 0,
    img.pix.getD (r * img.stride + cx * 4 + 1) 0,
    img.pix.getD (r * img.stride + cx * 4 + 2) 0,
    img.pix.getD (r * img.stride + cx * 4 + 3) 0)

/-- The cbTCA8 generic per-pixel fallback of `writeImage` (writer.go
558–568): for each x, convert the sample to non-premultiplied RGBA and
emit R, G, B, A. -/
def genericRowTCA8 (img : NRGBAImage) (r : Nat) : List Nat :=
  (List.range img.dx).flatMap fun cx =>
    [(atNRGBA img r cx).1, (atNRGBA img r cx).2.1,
      (atNRGBA img r cx).2.2.1, (atNRGBA img r cx).2.2.2]

theorem sumAbs_nil : sumAbs [] = 0 := rfl

theorem sumAbs_cons (x : Nat) (xs : List Nat) : sumAbs (x :: xs) = abs8 x + sumAbs xs := by
  simp [sumAbs]

theorem sumAbs_append (a b : List Nat) : sumAbs (a ++ b) = sumAbs a + sumAbs b := by
  simp [sumAbs]

theorem sumAbs_take_drop (l : List Nat) (n : Nat) :
    sumAbs (l.take n) + sumAbs (l.drop n) = sumAbs l := by
  rw [← sumAbs_append, List.take_append_drop]

theorem fillAll_eq (old vals : List Nat) (acc : Nat) (h : vals.length ≤ old.length) :
    fillAll old vals acc = (vals ++ old.drop vals.length, acc + sumAbs vals) := by
  induction vals generalizing old acc with
  | nil => simp [fillAll, sumAbs]
  | cons x vr ih =>
    match old with
    | [] => simp at h
    | o :: or =>
      simp only [List.length_cons, Nat.add_le_add_iff_right] at h
      simp [fillAll, ih or (acc + abs8 x) h, sumAbs_cons]
      try omega

theorem fillLoop_le (vals : List Nat) :
    ∀ (old : List Nat) (acc best : Nat), (fillLoop old vals acc best).2 ≤ acc + sumAbs vals := by
  induction vals with
  | nil =>
    intro old acc best
    cases old <;> simp [fillLoop]
  | cons x vr ih =>
    intro old acc best
    match old with
    | [] => simp [fillLoop]
    | o :: or =>
      simp only [fillLoop, sumAbs_cons]
      by_cases hb : best ≤ acc + abs8 x
      · simp only [if_pos hb]
        omega
      · simp only [if_neg hb]
        have := ih or (acc + abs8 x) best
        omega

theorem fillLoop_lt (vals : List Nat) :
    ∀ (old : List Nat) (acc best : Nat), vals.length ≤ old.length →
      (fillLoop old vals acc best).2 < best →
      fillLoop old vals acc best = (vals ++ old.drop vals.length, acc + sumAbs vals) := by
  induction vals with
  | nil =>
    intro old acc best _ _
    cases old <;> simp [fillLoop, sumAbs]
  | cons x vr ih =>
    intro old acc best hlen hlt
    match old with
    | [] => simp at hlen
    | o :: or =>
      simp only [List.length_cons, Nat.add_le_add_iff_right] at hlen
      simp only [fillLoop] at hlt ⊢
      by_cases hb : best ≤ acc + abs8 x
      · simp only [if_pos hb] at hlt
        omega
      · simp only [if_neg hb] at hlt ⊢
        have hrec := ih or (acc + abs8 x) best hlen hlt
        simp [hrec, sumAbs_cons]
        omega

theorem fillLoop_buf (vals : List Nat) :
    ∀ (old : List Nat) (acc best : Nat),
      ∃ m, (fillLoop old vals acc best).1 = vals.take m ++ old.drop m := by
  induction vals with
  | nil =>
    intro old acc best
    exact ⟨0, by cases old <;> simp [fillLoop]⟩
  | cons x vr ih =>
    intro old acc best
    match old with
    | [] => exact ⟨0, by simp [fillLoop]⟩
    | o :: or =>
      by_cases hb : best ≤ acc + abs8 x
      · exact ⟨1, by simp [fillLoop, hb]⟩
      · obtain ⟨m, hm⟩ := ih or (acc + abs8 x) best
        exact ⟨m + 1, by simp [fillLoop, hb, hm]⟩

theorem sumLoop_le (xs : List Nat) :
    ∀ (acc best : Nat), sumLoop xs acc best ≤ acc + sumAbs xs := by
  induction xs with
  | nil => intro acc best; simp [sumLoop, sumAbs]
  | cons x rest ih =>
    intro acc best
    simp only [sumLoop, sumAbs_cons]
    by_cases hb : best ≤ acc + abs8 x
    · simp only [if_pos hb]; omega
    · simp only [if_neg hb]
      have := ih (acc + abs8 x) best
      omega

theorem sumLoop_lt (xs : List Nat) :
    ∀ (acc best : Nat), sumLoop xs acc best < best → sumLoop xs acc best = acc + sumAbs xs := by
  induction xs with
  | nil => intro acc best _; simp [sumLoop, sumAbs]
  | cons x rest ih =>
    intro acc best hlt
    simp only [sumLoop] at hlt ⊢
    by_cases hb : best ≤ acc + abs8 x
    · simp only [if_pos hb] at hlt; omega
    · simp only [if_neg hb] at hlt ⊢
      rw [ih (acc + abs8 x) best hlt, sumAbs_cons]
      omega

theorem fillStage_le (old vals : List Nat) (bpp best : Nat) (h : vals.length = old.length) :
    (fillStage old vals bpp best).2 ≤ sumAbs vals := by
  have h1 : (vals.take bpp).length ≤ (old.take bpp).length := by simp [h]
  have hAll := fillAll_eq (old.take bpp) (vals.take bpp) 0 h1
  have hLe := fillLoop_le (vals.drop bpp) (old.drop bpp)
    ((fillAll (old.take bpp) (vals.take bpp) 0).2) best
  simp only [fillStage]
  calc (fillLoop (old.drop bpp) (vals.drop bpp) (fillAll (old.take bpp) (vals.take bpp) 0).2 best).2
      ≤ (fillAll (old.take bpp) (vals.take bpp) 0).2 + sumAbs (vals.drop bpp) := hLe
    _ = sumAbs (vals.take bpp) + sumAbs (vals.drop bpp) := by rw [hAll]; simp
    _ = sumAbs vals := sumAbs_take_drop vals bpp

theorem fillStage_lt (old vals : List Nat) (bpp best : Nat) (h : vals.length = old.length)
    (hlt : (fillStage old vals bpp best).2 < best) :
    fillStage old vals bpp best = (vals, sumAbs vals) := by
  have h1 : (vals.take bpp).length ≤ (old.take bpp).length := by simp [h]
  have h2 : (vals.drop bpp).length ≤ (old.drop bpp).length := by simp [h]
  have hAll := fillAll_eq (old.take bpp) (vals.take bpp) 0 h1
  simp only [fillStage, hAll] at hlt ⊢
  have hLoop := fillLoop_lt (vals.drop bpp) (old.drop bpp) (0 + sumAbs (vals.take bpp)) best h2 hlt
  rw [hLoop]
  have hdTake : (old.take bpp).drop (vals.take bpp).length = [] := by
    apply List.drop_eq_nil_of_le
    simp [h]
  have hdDrop : (old.drop bpp).drop (vals.drop bpp).length = [] := by
    apply List.drop_eq_nil_of_le
    simp [h]
  rw [hdTake, hdDrop]
  simp [List.take_append_drop, ← sumAbs_take_drop vals bpp]

theorem fillStage_buf (old vals : List Nat) (bpp best : Nat) (h : vals.length = old.length) :
    ∃ m, (fillStage old vals bpp best).1 = vals.take m ++ old.drop m := by
  have h1 : (vals.take bpp).length ≤ (old.take bpp).length := by simp [h]
  have hAll := fillAll_eq (old.take bpp) (vals.take bpp) 0 h1
  obtain ⟨m, hm⟩ := fillLoop_buf (vals.drop bpp) (old.drop bpp)
    (0 + sumAbs (vals.take bpp)) best
  refine ⟨bpp + m, ?_⟩
  have hdTake : (old.take bpp).drop (vals.take bpp).length = [] := by
    apply List.drop_eq_nil_of_le
    simp [h]
  simp only [fillStage, hAll, hdTake, List.append_nil]
  rw [hm, List.take_add, List.append_assoc, ← List.drop_drop]

theorem upVals_length (c0 pd : List Nat) : (upVals c0 pd).length = c0.length := by
  simp [upVals]

theorem subVals_length (c0 : List Nat) (bpp : Nat) : (subVals c0 bpp).length = c0.length := by
  simp [subVals]

theorem avgVals_length (c0 pd : List Nat) (bpp : Nat) : (avgVals c0 pd bpp).length = c0.length := by
  simp [avgVals]

theorem paethVals_length (c0 pd : List Nat) (bpp : Nat) :
    (paethVals c0 pd bpp).length = c0.length := by
  simp [paethVals]

theorem fullSum_0 (c0 pd : List Nat) (bpp : Nat) : fullSum 0 c0 pd bpp = sumAbs c0 := rfl

theorem fullSum_1 (c0 pd : List Nat) (bpp : Nat) :
    fullSum 1 c0 pd bpp = sumAbs (subVals c0 bpp) := rfl

theorem fullSum_2 (c0 pd : List Nat) (bpp : Nat) :
    fullSum 2 c0 pd bpp = sumAbs (upVals c0 pd) := rfl

theorem fullSum_3 (c0 pd : List Nat) (bpp : Nat) :
    fullSum 3 c0 pd bpp = sumAbs (avgVals c0 pd bpp) := rfl

theorem fullSum_4 (c0 pd : List Nat) (bpp : Nat) :
    fullSum 4 c0 pd bpp = sumAbs (paethVals c0 pd bpp) := rfl

/-- Closing step for the minimality proof: a filter index below 5 whose
full sum is below each of the five per-rule full sums is minimal among
all rules. -/
theorem minimal_close (f : Nat) (c0 pd : List Nat) (bpp : Nat) (hf : f < 5)
    (k0 : fullSum f c0 pd bpp ≤ sumAbs c0)
    (k1 : fullSum f c0 pd bpp ≤ sumAbs (subVals c0 bpp))
    (k2 : fullSum f c0 pd bpp ≤ sumAbs (upVals c0 pd))
    (k3 : fullSum f c0 pd bpp ≤ sumAbs (avgVals c0 pd bpp))
    (k4 : fullSum f c0 pd bpp ≤ sumAbs (paethVals c0 pd bpp)) :
    f < nFilter ∧ ∀ r, r < nFilter → fullSum f c0 pd bpp ≤ fullSum r c0 pd bpp := by
  refine ⟨by simpa [nFilter] using hf, ?_⟩
  intro r hr
  have hr5 : r = 0 ∨ r = 1 ∨ r = 2 ∨ r = 3 ∨ r = 4 := by
    simp only [nFilter] at hr
    omega
  rcases hr5 with rfl | rfl | rfl | rfl | rfl <;>
    simp only [fullSum_0, fullSum_1, fullSum_2, fullSum_3, fullSum_4] <;>
    assumption

theorem fullSum_ftNone (c0 pd : List Nat) (bpp : Nat) :
    fullSum ftNone c0 pd bpp = sumAbs c0 := rfl

theorem fullSum_ftSub (c0 pd : List Nat) (bpp : Nat) :
    fullSum ftSub c0 pd bpp = sumAbs (subVals c0 bpp) := rfl

theorem fullSum_ftUp (c0 pd : List Nat) (bpp : Nat) :
    fullSum ftUp c0 pd bpp = sumAbs (upVals c0 pd) := rfl

theorem fullSum_ftAverage (c0 pd : List Nat) (bpp : Nat) :
    fullSum ftAverage c0 pd bpp = sumAbs (avgVals c0 pd bpp) := rfl

theorem fullSum_ftPaeth (c0 pd : List Nat) (bpp : Nat) :
    fullSum ftPaeth c0 pd bpp = sumAbs (paethVals c0 pd bpp) := rfl

set_option maxHeartbeats 1000000 in
/-- C2: the `filter` function — which evaluates the candidates in the fixed
order up, paeth, none, sub, average, with early-exit partial sums and
strict-inequality selection (ties keep the earlier candidate) — returns a
filter index in 0..4 whose full sum of absolute signed-byte magnitudes is
≤ the full (no early-exit) sum of every one of the five rules, in
particular of each of the four rules it did not choose. -/
theorem filter_chosen_minimal (cdat0 pdat : List Nat) (bufs : RowBufs) (bpp : Nat)
    (h1 : bufs.cr1.length = cdat0.length) (h2 : bufs.cr2.length = cdat0.length)
    (h3 : bufs.cr3.length = cdat0.length) (h4 : bufs.cr4.length = cdat0.length) :
    (filter cdat0 pdat bufs bpp).1 < nFilter ∧
      ∀ r, r < nFilter →
        fullSum ((filter cdat0 pdat bufs bpp).1) cdat0 pdat bpp ≤ fullSum r cdat0 pdat bpp := by
  have hU := fillAll_eq bufs.cr2 (upVals cdat0 pdat) 0 (le_of_eq (by rw [upVals_length, h2]))
  have hP4 : (paethVals cdat0 pdat bpp).length = bufs.cr4.length := by
    rw [paethVals_length, h4]
  have hS1 : (subVals cdat0 bpp).length = bufs.cr1.length := by
    rw [subVals_length, h1]
  have hA3 : (avgVals cdat0 pdat bpp).length = bufs.cr3.length := by
    rw [avgVals_length, h3]
  have hNfact : ∀ b, sumLoop cdat0 0 b ≤ sumAbs cdat0 ∧
      (sumLoop cdat0 0 b = sumAbs cdat0 ∨ b ≤ sumLoop cdat0 0 b) := by
    intro b
    have hle := sumLoop_le cdat0 0 b
    refine ⟨by omega, ?_⟩
    by_cases hc : sumLoop cdat0 0 b < b
    · left
      have := sumLoop_lt cdat0 0 b hc
      omega
    · right
      omega
  have hSfact : ∀ b, (fillStage bufs.cr1 (subVals cdat0 bpp) bpp b).2 ≤ sumAbs (subVals cdat0 bpp) ∧
      ((fillStage bufs.cr1 (subVals cdat0 bpp) bpp b).2 = sumAbs (subVals cdat0 bpp) ∨
        b ≤ (fillStage bufs.cr1 (subVals cdat0 bpp) bpp b).2) := by
    intro b
    refine ⟨fillStage_le _ _ _ _ hS1, ?_⟩
    by_cases hc : (fillStage bufs.cr1 (subVals cdat0 bpp) bpp b).2 < b
    · left
      rw [fillStage_lt _ _ _ _ hS1 hc]
    · right
      omega
  have hAfact : ∀ b, (fillStage bufs.cr3 (avgVals cdat0 pdat bpp) bpp b).2 ≤ sumAbs (avgVals cdat0 pdat bpp) ∧
      ((fillStage bufs.cr3 (avgVals cdat0 pdat bpp) bpp b).2 = sumAbs (avgVals cdat0 pdat bpp) ∨
        b ≤ (fillStage bufs.cr3 (avgVals cdat0 pdat bpp) bpp b).2) := by
    intro b
    refine ⟨fillStage_le _ _ _ _ hA3, ?_⟩
    by_cases hc : (fillStage bufs.cr3 (avgVals cdat0 pdat bpp) bpp b).2 < b
    · left
      rw [fillStage_lt _ _ _ _ hA3 hc]
    · right
      omega
  have hPle : (fillStage bufs.cr4 (paethVals cdat0 pdat bpp) bpp (sumAbs (upVals cdat0 pdat))).2 ≤
      sumAbs (paethVals cdat0 pdat bpp) := fillStage_le _ _ _ _ hP4
  have hPdisj : (fillStage bufs.cr4 (paethVals cdat0 pdat bpp) bpp (sumAbs (upVals cdat0 pdat))).2 =
      sumAbs (paethVals cdat0 pdat bpp) ∨
      sumAbs (upVals cdat0 pdat) ≤
        (fillStage bufs.cr4 (paethVals cdat0 pdat bpp) bpp (sumAbs (upVals cdat0 pdat))).2 := by
    by_cases hc : (fillStage bufs.cr4 (paethVals cdat0 pdat bpp) bpp (sumAbs (upVals cdat0 pdat))).2 <
        sumAbs (upVals cdat0 pdat)
    · left
      rw [fillStage_lt _ _ _ _ hP4 hc]
    · right
      omega
  simp only [filter, hU, Nat.zero_add]
  set sP := (fillStage bufs.cr4 (paethVals cdat0 pdat bpp) bpp (sumAbs (upVals cdat0 pdat))).2 with hsP
  clear hsP
  by_cases hP : sP < sumAbs (upVals cdat0 pdat)
  · simp only [if_pos hP]
    obtain ⟨hNle, hNdisj⟩ := hNfact sP
    set sN := sumLoop cdat0 0 sP with hsN
    clear hsN
    by_cases hN : sN < sP
    · simp only [if_pos hN]
      obtain ⟨hSle, hSdisj⟩ := hSfact sN
      set sS := (fillStage bufs.cr1 (subVals cdat0 bpp) bpp sN).2 with hsS
      clear hsS
      by_cases hS : sS < sN
      · simp only [if_pos hS]
        obtain ⟨hAle, hAdisj⟩ := hAfact sS
        set sA := (fillStage bufs.cr3 (avgVals cdat0 pdat bpp) bpp sS).2 with hsA
        clear hsA
        by_cases hA : sA < sS
        · simp only [if_pos hA]
          refine minimal_close ftAverage cdat0 pdat bpp (by decide) ?_ ?_ ?_ ?_ ?_ <;>
            rw [fullSum_ftAverage] <;> omega
        · simp only [if_neg hA]
          refine minimal_close ftSub cdat0 pdat bpp (by decide) ?_ ?_ ?_ ?_ ?_ <;>
            rw [fullSum_ftSub] <;> omega
      · simp only [if_neg hS]
        obtain ⟨hAle, hAdisj⟩ := hAfact sN
        set sA := (fillStage bufs.cr3 (avgVals cdat0 pdat bpp) bpp sN).2 with hsA
        clear hsA
        by_cases hA : sA < sN
        · simp only [if_pos hA]
          refine minimal_close ftAverage cdat0 pdat bpp (by decide) ?_ ?_ ?_ ?_ ?_ <;>
            rw [fullSum_ftAverage] <;> omega
        · simp only [if_neg hA]
          refine minimal_close ftNone cdat0 pdat bpp (by decide) ?_ ?_ ?_ ?_ ?_ <;>
            rw [fullSum_ftNone] <;> omega
    · simp only [if_neg hN]
      obtain ⟨hSle, hSdisj⟩ := hSfact sP
      set sS := (fillStage bufs.cr1 (subVals cdat0 bpp) bpp sP).2 with hsS
      clear hsS
      by_cases hS : sS < sP
      · simp only [if_pos hS]
        obtain ⟨hAle, hAdisj⟩ := hAfact sS
        set sA := (fillStage bufs.cr3 (avgVals cdat0 pdat bpp) bpp sS).2 with hsA
        clear hsA
        by_cases hA : sA < sS
        · simp only [if_pos hA]
          refine minimal_close ftAverage cdat0 pdat bpp (by decide) ?_ ?_ ?_ ?_ ?_ <;>
            rw [fullSum_ftAverage] <;> omega
        · simp only [if_neg hA]
          refine minimal_close ftSub cdat0 pdat bpp (by decide) ?_ ?_ ?_ ?_ ?_ <;>
            rw [fullSum_ftSub] <;> omega
      · simp only [if_neg hS]
        obtain ⟨hAle, hAdisj⟩ := hAfact sP
        set sA := (fillStage bufs.cr3 (avgVals cdat0 pdat bpp) bpp sP).2 with hsA
        clear hsA
        by_cases hA : sA < sP
        · simp only [if_pos hA]
          refine minimal_close ftAverage cdat0 pdat bpp (by decide) ?_ ?_ ?_ ?_ ?_ <;>
            rw [fullSum_ftAverage] <;> omega
        · simp only [if_neg hA]
          refine minimal_close ftPaeth cdat0 pdat bpp (by decide) ?_ ?_ ?_ ?_ ?_ <;>
            rw [fullSum_ftPaeth] <;> omega
  · simp only [if_neg hP]
    obtain ⟨hNle, hNdisj⟩ := hNfact (sumAbs (upVals cdat0 pdat))
    set sN := sumLoop cdat0 0 (sumAbs (upVals cdat0 pdat)) with hsN
    clear hsN
    by_cases hN : sN < sumAbs (upVals cdat0 pdat)
    · simp only [if_pos hN]
      obtain ⟨hSle, hSdisj⟩ := hSfact sN
      set sS := (fillStage bufs.cr1 (subVals cdat0 bpp) bpp sN).2 with hsS
      clear hsS
      by_cases hS : sS < sN
      · simp only [if_pos hS]
        obtain ⟨hAle, hAdisj⟩ := hAfact sS
        set sA := (fillStage bufs.cr3 (avgVals cdat0 pdat bpp) bpp sS).2 with hsA
        clear hsA
        by_cases hA : sA < sS
        · simp only [if_pos hA]
          refine minimal_close ftAverage cdat0 pdat bpp (by decide) ?_ ?_ ?_ ?_ ?_ <;>
            rw [fullSum_ftAverage] <;> omega
        · simp only [if_neg hA]
          refine minimal_close ftSub cdat0 pdat bpp (by decide) ?_ ?_ ?_ ?_ ?_ <;>
            rw [fullSum_ftSub] <;> omega
      · simp only [if_neg hS]
        obtain ⟨hAle, hAdisj⟩ := hAfact sN
        set sA := (fillStage bufs.cr3 (avgVals cdat0 pdat bpp) bpp sN).2 with hsA
        clear hsA
        by_cases hA : sA < sN
        · simp only [if_pos hA]
          refine minimal_close ftAverage cdat0 pdat bpp (by decide) ?_ ?_ ?_ ?_ ?_ <;>
            rw [fullSum_ftAverage] <;> omega
        · simp only [if_neg hA]
          refine minimal_close ftNone cdat0 pdat bpp (by decide) ?_ ?_ ?_ ?_ ?_ <;>
            rw [fullSum_ftNone] <;> omega
    · simp only [if_neg hN]
      obtain ⟨hSle, hSdisj⟩ := hSfact (sumAbs (upVals cdat0 pdat))
      set sS := (fillStage bufs.cr1 (subVals cdat0 bpp) bpp (sumAbs (upVals cdat0 pdat))).2 with hsS
      clear hsS
      by_cases hS : sS < sumAbs (upVals cdat0 pdat)
      · simp only [if_pos hS]
        obtain ⟨hAle, hAdisj⟩ := hAfact sS
        set sA := (fillStage bufs.cr3 (avgVals cdat0 pdat bpp) bpp sS).2 with hsA
        clear hsA
        by_cases hA : sA < sS
        · simp only [if_pos hA]
          refine minimal_close ftAverage cdat0 pdat bpp (by decide) ?_ ?_ ?_ ?_ ?_ <;>
            rw [fullSum_ftAverage] <;> omega
        · simp only [if_neg hA]
          refine minimal_close ftSub cdat0 pdat bpp (by decide) ?_ ?_ ?_ ?_ ?_ <;>
            rw [fullSum_ftSub] <;> omega
      · simp only [if_neg hS]
        obtain ⟨hAle, hAdisj⟩ := hAfact (sumAbs (upVals cdat0 pdat))
        set sA := (fillStage bufs.cr3 (avgVals cdat0 pdat bpp) bpp (sumAbs (upVals cdat0 pdat))).2 with hsA
        clear hsA
        by_cases hA : sA < sumAbs (upVals cdat0 pdat)
        · simp only [if_pos hA]
          refine minimal_close ftAverage cdat0 pdat bpp (by decide) ?_ ?_ ?_ ?_ ?_ <;>
            rw [fullSum_ftAverage] <;> omega
        · simp only [if_neg hA]
          refine minimal_close ftUp cdat0 pdat bpp (by decide) ?_ ?_ ?_ ?_ ?_ <;>
            rw [fullSum_ftUp] <;> omega


/-- Witness for C2 at a concrete row. -/
theorem filter_chosen_minimal_witness :
    (filter [1, 2, 3] [0, 0, 0] ⟨[9, 9, 9], [9, 9, 9], [9, 9, 9], [9, 9, 9]⟩ 1).1 < nFilter ∧
      fullSum ((filter [1, 2, 3] [0, 0, 0] ⟨[9, 9, 9], [9, 9, 9], [9, 9, 9], [9, 9, 9]⟩ 1).1)
        [1, 2, 3] [0, 0, 0] 1 ≤ fullSum 1 [1, 2, 3] [0, 0, 0] 1 := by
  have h := filter_chosen_minimal [1, 2, 3] [0, 0, 0]
    ⟨[9, 9, 9], [9, 9, 9], [9, 9, 9], [9, 9, 9]⟩ 1 (by decide) (by decide) (by decide) (by decide)
  exact ⟨h.1, h.2 1 (by decide)⟩

theorem getD_take_lt (l : List Nat) (k j : Nat) (h : j < k) :
    (l.take k).getD j 0 = l.getD j 0 := by
  rw [List.getD_eq_getElem?_getD, List.getD_eq_getElem?_getD, List.getElem?_take, if_pos h]

theorem sub8_add (a b : Nat) (ha : a < 256) : (sub8 a b + b) % 256 = a := by
  unfold sub8
  omega

theorem paeth_zero (b : Nat) : paeth 0 b 0 = b := by
  unfold paeth
  simp only [Nat.cast_zero, add_zero, zero_add, sub_zero, Int.natAbs_ofNat]
  split_ifs with h1 h2 <;> simp_all

theorem getD_lt_of_mem (l : List Nat) (k : Nat) (hk : k < l.length)
    (hc : ∀ x ∈ l, x < 256) : l.getD k 0 < 256 := by
  rw [List.getD_eq_getElem l 0 hk]
  exact hc _ (List.getElem_mem hk)

/-- The reconstruction loop inverts a filtered row produced as
`(range n).map v` as long as each single step restores the raw byte. -/
theorem unfilter_mapRange (r : Nat) (pd c0 : List Nat) (bpp : Nat) (v : Nat → Nat)
    (hstep : ∀ k, k < c0.length →
      unfilterStep r pd bpp (c0.take k) (v k) = c0.take k ++ [c0.getD k 0]) :
    unfilterRow r pd bpp ((List.range c0.length).map v) = c0 := by
  have key : ∀ j, j ≤ c0.length →
      List.foldl (unfilterStep r pd bpp) [] ((List.range j).map v) = c0.take j := by
    intro j
    induction j with
    | zero => intro _; simp
    | succ i ih =>
      intro hj
      have hi : i < c0.length := Nat.lt_of_succ_le hj
      rw [List.range_succ, List.map_append, List.foldl_append, ih (Nat.le_of_lt hi)]
      simp only [List.map_cons, List.map_nil, List.foldl_cons, List.foldl_nil]
      rw [hstep i hi, List.take_succ]
      congr 1
      rw [List.getD_eq_getElem?_getD, List.getElem?_eq_getElem hi]
      simp
  have h := key c0.length le_rfl
  rw [unfilterRow, h, List.take_length]

theorem unfilter_step_none (c0 pd : List Nat) (bpp k : Nat) (hk : k < c0.length)
    (hc : ∀ x ∈ c0, x < 256) :
    unfilterStep 0 pd bpp (c0.take k) (c0.getD k 0) = c0.take k ++ [c0.getD k 0] := by
  have hck := getD_lt_of_mem c0 k hk hc
  simp only [unfilterStep]
  rw [if_pos (show (0 : Nat) = ftNone from rfl)]
  rw [Nat.add_zero, Nat.mod_eq_of_lt hck]

theorem unfilter_step_sub (c0 pd : List Nat) (bpp k : Nat) (hb : 1 ≤ bpp) (hk : k < c0.length)
    (hc : ∀ x ∈ c0, x < 256) :
    unfilterStep 1 pd bpp (c0.take k)
      (if k < bpp then c0.getD k 0 else sub8 (c0.getD k 0) (c0.getD (k - bpp) 0)) =
      c0.take k ++ [c0.getD k 0] := by
  have hck := getD_lt_of_mem c0 k hk hc
  have hmin : k ⊓ c0.length = k := Nat.min_eq_left (le_of_lt hk)
  simp only [unfilterStep, List.length_take, hmin]
  rw [if_neg (show ¬(1 : Nat) = ftNone from by decide)]
  rw [if_pos (show (1 : Nat) = ftSub from rfl)]
  by_cases hkb : k < bpp
  · simp only [if_pos hkb]
    rw [Nat.add_zero, Nat.mod_eq_of_lt hck]
  · simp only [if_neg hkb]
    rw [getD_take_lt c0 k (k - bpp) (by omega), sub8_add _ _ hck]

theorem unfilter_step_up (c0 pd : List Nat) (bpp k : Nat) (hk : k < c0.length)
    (hc : ∀ x ∈ c0, x < 256) :
    unfilterStep 2 pd bpp (c0.take k) (sub8 (c0.getD k 0) (pd.getD k 0)) =
      c0.take k ++ [c0.getD k 0] := by
  have hck := getD_lt_of_mem c0 k hk hc
  have hmin : k ⊓ c0.length = k := Nat.min_eq_left (le_of_lt hk)
  simp only [unfilterStep, List.length_take, hmin]
  rw [if_neg (show ¬(2 : Nat) = ftNone from by decide)]
  rw [if_neg (show ¬(2 : Nat) = ftSub from by decide)]
  rw [if_pos (show (2 : Nat) = ftUp from rfl)]
  rw [sub8_add _ _ hck]

theorem unfilter_step_avg (c0 pd : List Nat) (bpp k : Nat) (hb : 1 ≤ bpp) (hk : k < c0.length)
    (hc : ∀ x ∈ c0, x < 256) :
    unfilterStep 3 pd bpp (c0.take k)
      (if k < bpp then sub8 (c0.getD k 0) (pd.getD k 0 / 2)
        else sub8 (c0.getD k 0) ((c0.getD (k - bpp) 0 + pd.getD k 0) / 2)) =
      c0.take k ++ [c0.getD k 0] := by
  have hck := getD_lt_of_mem c0 k hk hc
  have hmin : k ⊓ c0.length = k := Nat.min_eq_left (le_of_lt hk)
  simp only [unfilterStep, List.length_take, hmin]
  rw [if_neg (show ¬(3 : Nat) = ftNone from by decide)]
  rw [if_neg (show ¬(3 : Nat) = ftSub from by decide)]
  rw [if_neg (show ¬(3 : Nat) = ftUp from by decide)]
  rw [if_pos (show (3 : Nat) = ftAverage from rfl)]
  by_cases hkb : k < bpp
  · simp only [if_pos hkb]
    rw [Nat.zero_add, sub8_add _ _ hck]
  · simp only [if_neg hkb]
    rw [getD_take_lt c0 k (k - bpp) (by omega), sub8_add _ _ hck]

theorem unfilter_step_paeth (c0 pd : List Nat) (bpp k : Nat) (hb : 1 ≤ bpp) (hk : k < c0.length)
    (hc : ∀ x ∈ c0, x < 256) :
    unfilterStep 4 pd bpp (c0.take k)
      (if k < bpp then sub8 (c0.getD k 0) (pd.getD k 0)
        else sub8 (c0.getD k 0)
          (paeth (c0.getD (k - bpp) 0) (pd.getD k 0) (pd.getD (k - bpp) 0))) =
      c0.take k ++ [c0.getD k 0] := by
  have hck := getD_lt_of_mem c0 k hk hc
  have hmin : k ⊓ c0.length = k := Nat.min_eq_left (le_of_lt hk)
  simp only [unfilterStep, List.length_take, hmin]
  rw [if_neg (show ¬(4 : Nat) = ftNone from by decide)]
  rw [if_neg (show ¬(4 : Nat) = ftSub from by decide)]
  rw [if_neg (show ¬(4 : Nat) = ftUp from by decide)]
  rw [if_neg (show ¬(4 : Nat) = ftAverage from by decide)]
  by_cases hkb : k < bpp
  · simp only [if_pos hkb]
    rw [paeth_zero, sub8_add _ _ hck]
  · simp only [if_neg hkb]
    rw [getD_take_lt c0 k (k - bpp) (by omega), sub8_add _ _ hck]

theorem list_eq_mapRange (l : List Nat) :
    l = (List.range l.length).map (fun i => l.getD i 0) := by
  apply List.ext_getElem
  · simp
  · intro i h1 h2
    simp only [List.getElem_map, List.getElem_range]
    rw [List.getD_eq_getElem l 0 h1]

theorem filter_fst_lt (cdat0 pdat : List Nat) (bufs : RowBufs) (bpp : Nat) :
    (filter cdat0 pdat bufs bpp).1 < 5 := by
  simp only [filter]
  split_ifs <;> decide


/-- C3: reversing the filter rule chosen by `filter` (adding back, mod 256,
the left byte for sub, the above byte for up, the floored average for
average, and the Paeth prediction for paeth, with out-of-range neighbours
taken as 0) reproduces the original raw row exactly. -/
theorem filter_roundtrip (cdat0 pdat : List Nat) (bufs : RowBufs) (bpp : Nat)
    (hb : 1 ≤ bpp) (hc : ∀ x ∈ cdat0, x < 256) :
    unfilterRow ((filter cdat0 pdat bufs bpp).1) pdat bpp
      (filterVals ((filter cdat0 pdat bufs bpp).1) cdat0 pdat bpp) = cdat0 := by
  have h5 := filter_fst_lt cdat0 pdat bufs bpp
  have h05 : (filter cdat0 pdat bufs bpp).1 = 0 ∨ (filter cdat0 pdat bufs bpp).1 = 1 ∨
      (filter cdat0 pdat bufs bpp).1 = 2 ∨ (filter cdat0 pdat bufs bpp).1 = 3 ∨
      (filter cdat0 pdat bufs bpp).1 = 4 := by omega
  rcases h05 with hf | hf | hf | hf | hf <;> rw [hf]
  · rw [show filterVals 0 cdat0 pdat bpp = cdat0 from by
      simp [filterVals, ftSub, ftUp, ftAverage, ftPaeth]]
    conv_lhs => rw [list_eq_mapRange cdat0]
    exact unfilter_mapRange 0 pdat cdat0 bpp _
      (fun k hk => unfilter_step_none cdat0 pdat bpp k hk hc)
  · rw [show filterVals 1 cdat0 pdat bpp = subVals cdat0 bpp from by
      simp [filterVals, ftSub]]
    simp only [subVals]
    exact unfilter_mapRange 1 pdat cdat0 bpp _
      (fun k hk => unfilter_step_sub cdat0 pdat bpp k hb hk hc)
  · rw [show filterVals 2 cdat0 pdat bpp = upVals cdat0 pdat from by
      simp [filterVals, ftSub, ftUp]]
    simp only [upVals]
    exact unfilter_mapRange 2 pdat cdat0 bpp _
      (fun k hk => unfilter_step_up cdat0 pdat bpp k hk hc)
  · rw [show filterVals 3 cdat0 pdat bpp = avgVals cdat0 pdat bpp from by
      simp [filterVals, ftSub, ftUp, ftAverage]]
    simp only [avgVals]
    exact unfilter_mapRange 3 pdat cdat0 bpp _
      (fun k hk => unfilter_step_avg cdat0 pdat bpp k hb hk hc)
  · rw [show filterVals 4 cdat0 pdat bpp = paethVals cdat0 pdat bpp from by
      simp [filterVals, ftSub, ftUp, ftAverage, ftPaeth]]
    simp only [paethVals]
    exact unfilter_mapRange 4 pdat cdat0 bpp _
      (fun k hk => unfilter_step_paeth cdat0 pdat bpp k hb hk hc)

/-- Witness for C3 at a concrete row. -/
theorem filter_roundtrip_witness :
    unfilterRow ((filter [3, 200, 17] [5, 6, 7] ⟨[9, 9, 9], [9, 9, 9], [9, 9, 9], [9, 9, 9]⟩ 1).1)
      [5, 6, 7] 1
      (filterVals ((filter [3, 200, 17] [5, 6, 7] ⟨[9, 9, 9], [9, 9, 9], [9, 9, 9], [9, 9, 9]⟩ 1).1)
        [3, 200, 17] [5, 6, 7] 1) = [3, 200, 17] :=
  filter_roundtrip [3, 200, 17] [5, 6, 7] ⟨[9, 9, 9], [9, 9, 9], [9, 9, 9], [9, 9, 9]⟩ 1
    (by decide) (by decide)


/-- C9 counterexample: with raw row = previous row = `[0,0,0]` and stale
buffer contents `7`, the paeth candidate's early exit fires immediately
after position `bpp`, so buffer 4 ends as `[0, 0, 7]` — the stale byte
survives — while the full paeth-filtered row is `[0, 0, 0]`.  Hence the
candidate buffers are NOT each overwritten in full. -/
theorem filter_buffers_counterexample :
    (filter [0, 0, 0] [0, 0, 0] ⟨[7, 7, 7], [7, 7, 7], [7, 7, 7], [7, 7, 7]⟩ 1).2.cr4 =
        [0, 0, 7] ∧
      paethVals [0, 0, 0] [0, 0, 0] 1 = [0, 0, 0] ∧
      (filter [0, 0, 0] [0, 0, 0] ⟨[7, 7, 7], [7, 7, 7], [7, 7, 7], [7, 7, 7]⟩ 1).2.cr4 ≠
        paethVals [0, 0, 0] [0, 0, 0] 1 := by
  refine ⟨by decide, by decide, by decide⟩

/-- C9 amended: buffer 2 (up) is always overwritten in full with the
up-filtered bytes; buffers 1, 3 and 4 are overwritten with a prefix of
their rule's filtered bytes — up to the point where the early exit
triggered — and keep their previous contents beyond that point. -/
theorem filter_buffer_writes (cdat0 pdat : List Nat) (bufs : RowBufs) (bpp : Nat)
    (h1 : bufs.cr1.length = cdat0.length) (h2 : bufs.cr2.length = cdat0.length)
    (h3 : bufs.cr3.length = cdat0.length) (h4 : bufs.cr4.length = cdat0.length) :
    (filter cdat0 pdat bufs bpp).2.cr2 = upVals cdat0 pdat ∧
      (∃ m, (filter cdat0 pdat bufs bpp).2.cr1 =
        (subVals cdat0 bpp).take m ++ bufs.cr1.drop m) ∧
      (∃ m, (filter cdat0 pdat bufs bpp).2.cr3 =
        (avgVals cdat0 pdat bpp).take m ++ bufs.cr3.drop m) ∧
      (∃ m, (filter cdat0 pdat bufs bpp).2.cr4 =
        (paethVals cdat0 pdat bpp).take m ++ bufs.cr4.drop m) := by
  have hUlen : (upVals cdat0 pdat).length ≤ bufs.cr2.length := le_of_eq (by rw [upVals_length, h2])
  have hU := fillAll_eq bufs.cr2 (upVals cdat0 pdat) 0 hUlen
  refine ⟨?_, ?_, ?_, ?_⟩
  · simp only [filter, hU]
    rw [List.drop_eq_nil_of_le (by rw [upVals_length, h2]), List.append_nil]
  · simp only [filter]
    exact fillStage_buf _ _ _ _ (by rw [subVals_length, h1])
  · simp only [filter]
    exact fillStage_buf _ _ _ _ (by rw [avgVals_length, h3])
  · simp only [filter]
    exact fillStage_buf _ _ _ _ (by rw [paethVals_length, h4])

/-- Witness for the amended C9 statement at a concrete row. -/
theorem filter_buffer_writes_witness :
    (filter [0, 0, 0] [0, 0, 0] ⟨[7, 7, 7], [7, 7, 7], [7, 7, 7], [7, 7, 7]⟩ 1).2.cr2 =
        upVals [0, 0, 0] [0, 0, 0] ∧
      (∃ m, (filter [0, 0, 0] [0, 0, 0] ⟨[7, 7, 7], [7, 7, 7], [7, 7, 7], [7, 7, 7]⟩ 1).2.cr1 =
        (subVals [0, 0, 0] 1).take m ++ [7, 7, 7].drop m) ∧
      (∃ m, (filter [0, 0, 0] [0, 0, 0] ⟨[7, 7, 7], [7, 7, 7], [7, 7, 7], [7, 7, 7]⟩ 1).2.cr3 =
        (avgVals [0, 0, 0] [0, 0, 0] 1).take m ++ [7, 7, 7].drop m) ∧
      (∃ m, (filter [0, 0, 0] [0, 0, 0] ⟨[7, 7, 7], [7, 7, 7], [7, 7, 7], [7, 7, 7]⟩ 1).2.cr4 =
        (paethVals [0, 0, 0] [0, 0, 0] 1).take m ++ [7, 7, 7].drop m) :=
  filter_buffer_writes [0, 0, 0] [0, 0, 0] ⟨[7, 7, 7], [7, 7, 7], [7, 7, 7], [7, 7, 7]⟩ 1
    (by decide) (by decide) (by decide) (by decide)


theorem seqDraws_from (k : Nat) :
    ∀ s, s < 2 ^ 32 → seqDraws k s = (List.range k).map (fun i => (s + i) % 2 ^ 32) := by
  induction k with
  | zero => intro s _; simp [seqDraws]
  | succ k ih =>
    intro s hs
    rw [List.range_succ_eq_map, List.map_cons, List.map_map]
    simp only [seqDraws, seqNext]
    congr 1
    · omega
    · rw [ih ((s + 1) % 2 ^ 32) (Nat.mod_lt _ (by norm_num))]
      apply List.map_congr_left
      intro i _
      simp only [Function.comp]
      omega

/-- C6 counterexample: the shared counter is a `uint32`, so after `2^32`
draws it wraps: the draw at index `2^32` repeats the value 0, and `Next`
at state `2^32 - 1` sets the counter to 0 instead of incrementing it to
`2^32`.  Hence for `k = 2^32 + 1` draws the values are not the contiguous
set `{0, ..., k-1}`. -/
theorem seqNext_wrap_counterexample :
    seqDraws (2 ^ 32 + 1) 0 ≠ List.range (2 ^ 32 + 1) ∧
      (seqNext (2 ^ 32 - 1)).2 ≠ 2 ^ 32 - 1 + 1 := by
  constructor
  · intro heq
    have hd := seqDraws_from (2 ^ 32 + 1) 0 (by norm_num)
    have e1 : (seqDraws (2 ^ 32 + 1) 0)[2 ^ 32]? = some ((0 + 2 ^ 32) % 2 ^ 32) := by
      rw [hd, List.getElem?_map, List.getElem?_range (by norm_num)]
      rfl
    rw [heq, List.getElem?_range (by norm_num)] at e1
    have : 2 ^ 32 = (0 + 2 ^ 32) % 2 ^ 32 := by
      exact Option.some.inj e1
    omega
  · show (2 ^ 32 - 1 + 1) % 2 ^ 32 ≠ 2 ^ 32 - 1 + 1
    norm_num

/-- C6 amended: as long as at most `2^32` values are drawn (the capacity of
the `uint32` counter), the values consumed by `k` successive draws from a
fresh counter are exactly `0, 1, ..., k-1` in draw order — no duplicate, no
skipped value — and each materialized frame-data chunk consumes exactly one
draw, carrying the drawn value as its sequence number. -/
theorem seq_draws_contiguous (k : Nat) (hk : k ≤ 2 ^ 32) :
    seqDraws k 0 = List.range k ∧
      ∀ s d, (fdATChunk s d).1.seqNum = (seqNext s).1 ∧ (fdATChunk s d).2 = (seqNext s).2 := by
  constructor
  · rw [seqDraws_from k 0 (by norm_num)]
    have h : ∀ i ∈ List.range k, (0 + i) % 2 ^ 32 = i := by
      intro i hi
      have := List.mem_range.mp hi
      omega
    rw [List.map_congr_left h]
    simp
  · intro s d
    exact ⟨rfl, rfl⟩

/-- Witness for the amended C6 statement. -/
theorem seq_draws_contiguous_witness :
    seqDraws 5 0 = List.range 5 ∧ (fdATChunk 3 [9]).1.seqNum = (seqNext 3).1 :=
  ⟨(seq_draws_contiguous 5 (by norm_num)).1,
    ((seq_draws_contiguous 5 (by norm_num)).2 3 [9]).1⟩


/-- C7: producer-side failures are delivered as data: pulling an error atom
makes `Err` return exactly that error, and once `Err` is non-empty every
subsequent `Next` call returns false immediately, leaving the state
untouched (so it does not consume, nor wait on, the channel). -/
theorem encoder_error_sticky (s : EncState) (e : Nat) (h : encErr s = some e) :
    encNext s = (false, s) ∧
      (∀ n, (fun t => (encNext t).2)^[n] s = s) ∧
      (∀ t a rest, encErr t = none → t.pending = a :: rest →
        encNext t = (true, ⟨rest, some a⟩) ∧ encErr ⟨rest, some a⟩ = a.err) := by
  have h1 : encNext s = (false, s) := by
    unfold encNext
    rw [h]
  refine ⟨h1, ?_, ?_⟩
  · intro n
    induction n with
    | zero => rfl
    | succ m ih =>
      rw [Function.iterate_succ_apply', ih]
      show (encNext s).2 = s
      rw [h1]
  · intro t a rest ht hp
    constructor
    · unfold encNext
      rw [ht, hp]
    · rfl

/-- Witness for C7: an encoder that has pulled an error atom. -/
theorem encoder_error_sticky_witness :
    encErr ⟨[], some ⟨[], some 7⟩⟩ = some 7 ∧
      encNext ⟨[], some ⟨[], some 7⟩⟩ = (false, ⟨[], some ⟨[], some 7⟩⟩) :=
  ⟨by decide, (encoder_error_sticky ⟨[], some ⟨[], some 7⟩⟩ 7 (by decide)).1⟩

/-- C4 counterexample: the header (color type = true-color, bit depth = 4)
is classified `cbInvalid`, yet starting an encode does not fail: the
returned encoder carries no error, and the delivered atom stream contains
no configuration error either — `NewEncoder_IDAT` never validates `cb`. -/
theorem newEncoderIDAT_no_config_error :
    cb ⟨100, 100, 4, 2, 0, 0, 0⟩ = cbInvalid ∧
      newEncoderIDAT ⟨100, 100, 4, 2, 0, 0, 0⟩ 0 [] = ⟨[], none⟩ ∧
      encErr (newEncoderIDAT ⟨100, 100, 4, 2, 0, 0, 0⟩ 0 []) = none := by
  refine ⟨by decide, by decide, by decide⟩

/-- C4 amended: `cb` classifies every unsupported (color type, bit depth)
pair as `cbInvalid` — e.g. true-color with bit depth 4 — but starting an
encode never fails synchronously and never reports a configuration error:
`NewEncoder_IDAT` performs no validation, always starts the background
task, and even the coder-construction error cannot fire because
`CompressionLevel.zlib` always yields a valid zlib level. -/
theorem newEncoderIDAT_never_fails (c : Chunk_IHDR) (cl : Int) (body : List Atom) :
    newEncoderIDAT c cl body = ⟨body, none⟩ ∧
      zlibNewWriterLevelErr (zlibLevel cl) = none ∧
      cb ⟨100, 100, 4, 2, 0, 0, 0⟩ = cbInvalid := by
  have hz : zlibNewWriterLevelErr (zlibLevel cl) = none := by
    unfold zlibLevel zlibNewWriterLevelErr
    split_ifs <;> first | rfl | omega
  refine ⟨?_, hz, by decide⟩
  unfold newEncoderIDAT
  rw [hz]

/-- C5: the background task closes the channel without ever closing the
zlib writer or flushing the 32 KiB bufio writer, so a compressed stream
smaller than the buffer is dropped entirely: the consumer receives no
units, the concatenation of the delivered units is not the stream, and
the close-with-flush behaviour the spec prescribes would have delivered
it.  (This also contradicts the package's own Example test, which prints
one IDAT chunk for a 100×100 image.) -/
theorem producer_drops_buffered_tail :
    producerDelivered 32768 [[120, 156, 3, 0]] = [] ∧
      producerDeliveredFlushed 32768 [[120, 156, 3, 0]] = [[120, 156, 3, 0]] ∧
      (producerDelivered 32768 [[120, 156, 3, 0]]).flatten ≠ [120, 156, 3, 0] := by
  refine ⟨by decide, by decide, by decide⟩


theorem tag4_of_length_four (name : List Nat) (hn : name.length = 4) : tag4 name = name := by
  rcases name with _ | ⟨a, _ | ⟨b, _ | ⟨c, _ | ⟨d, _ | ⟨x, t⟩⟩⟩⟩⟩ <;>
    simp only [List.length_cons, List.length_nil] at hn <;>
    first
      | rfl
      | omega

theorem readUint32_writeUint32 (u : Nat) (hu : u < 2 ^ 32) :
    readUint32 (writeUint32 u) = u := by
  simp only [readUint32, writeUint32, List.getD_cons_zero, List.getD_cons_succ]
  omega

theorem wWrite_ok (w : Writer) (p : List Nat) (hok : ∀ o ∈ w.outcomes, o = WOutcome.ok) :
    wWrite w p = (p.length, none, ⟨w.outcomes.drop 1, w.calls ++ [p], w.emitted ++ p⟩) := by
  rcases w with ⟨outs, calls, emitted⟩
  rcases outs with _ | ⟨o, rest⟩
  · simp [wWrite]
  · have he : o = WOutcome.ok := hok o (by simp)
    subst he
    simp [wWrite]

theorem writeChunkTo_all_ok (name b : List Nat) (w : Writer)
    (hok : ∀ o ∈ w.outcomes, o = WOutcome.ok) :
    writeChunkTo name b w =
      ((chunkHeader name b).length + b.length + (chunkFooter name b).length, none,
        ⟨((w.outcomes.drop 1).drop 1).drop 1,
          ((w.calls ++ [chunkHeader name b]) ++ [b]) ++ [chunkFooter name b],
          ((w.emitted ++ chunkHeader name b) ++ b) ++ chunkFooter name b⟩) := by
  have h1 := wWrite_ok w (chunkHeader name b) hok
  have hok1 : ∀ o ∈ w.outcomes.drop 1, o = WOutcome.ok :=
    fun o ho => hok o (List.mem_of_mem_drop ho)
  have h2 := wWrite_ok ⟨w.outcomes.drop 1, w.calls ++ [chunkHeader name b],
    w.emitted ++ chunkHeader name b⟩ b hok1
  have hok2 : ∀ o ∈ (w.outcomes.drop 1).drop 1, o = WOutcome.ok :=
    fun o ho => hok1 o (List.mem_of_mem_drop ho)
  have h3 := wWrite_ok ⟨(w.outcomes.drop 1).drop 1,
    (w.calls ++ [chunkHeader name b]) ++ [b],
    (w.emitted ++ chunkHeader name b) ++ b⟩ (chunkFooter name b) hok2
  simp only [writeChunkTo, h1, h2, h3]

theorem writeChunkTo_all_ok_emitted (name b : List Nat) (w : Writer)
    (hok : ∀ o ∈ w.outcomes, o = WOutcome.ok) :
    (writeChunkTo name b w).2.2.emitted =
      ((w.emitted ++ chunkHeader name b) ++ b) ++ chunkFooter name b := by
  rw [writeChunkTo_all_ok name b w hok]

/-- C1 amended: a successful `writeChunkTo` (every write accepted) returns
the total byte count `12 + |payload|` and no error, issues exactly the
three writes header, payload, footer, and emits exactly: the payload
length as 4 big-endian bytes, the 4 tag bytes, the payload, and the
4-byte big-endian CRC-32 computed over the tag bytes followed by the
payload only; provided the payload is shorter than `2^32` bytes, the
leading length field decodes back to the exact payload byte count. -/
theorem writeChunkTo_success_layout (name b : List Nat) (w : Writer)
    (hn : name.length = 4) (hb : b.length < 2 ^ 32)
    (hok : ∀ o ∈ w.outcomes, o = WOutcome.ok) :
    (writeChunkTo name b w).1 = 12 + b.length ∧
      (writeChunkTo name b w).2.1 = none ∧
      (writeChunkTo name b w).2.2.calls =
        w.calls ++ [chunkHeader name b, b, chunkFooter name b] ∧
      (writeChunkTo name b w).2.2.emitted =
        w.emitted ++ (writeUint32 b.length ++ name ++ b ++ writeUint32 (crc32 (name ++ b))) ∧
      readUint32 (writeUint32 b.length) = b.length := by
  have htag := tag4_of_length_four name hn
  have hmod : b.length % 2 ^ 32 = b.length := Nat.mod_eq_of_lt hb
  have hh : (chunkHeader name b).length = 8 := by
    simp [chunkHeader, writeUint32, tag4]
  have hf : (chunkFooter name b).length = 4 := by
    simp [chunkFooter, writeUint32]
  rw [writeChunkTo_all_ok name b w hok]
  refine ⟨?_, rfl, ?_, ?_, readUint32_writeUint32 b.length hb⟩
  · simp only [hh, hf]
    omega
  · simp [List.append_assoc]
  · simp only [chunkHeader, chunkFooter, hmod, htag, List.append_assoc]

/-- Witness for the amended C1 statement on the chunk `IHDR`-tagged payload
`[1, 2, 3]`. -/
theorem writeChunkTo_success_layout_witness :
    (writeChunkTo [73, 72, 68, 82] [1, 2, 3] ⟨[], [], []⟩).2.1 = none ∧
      (writeChunkTo [73, 72, 68, 82] [1, 2, 3] ⟨[], [], []⟩).2.2.emitted =
        [] ++ (writeUint32 3 ++ [73, 72, 68, 82] ++ [1, 2, 3] ++
          writeUint32 (crc32 ([73, 72, 68, 82] ++ [1, 2, 3]))) := by
  have h := writeChunkTo_success_layout [73, 72, 68, 82] [1, 2, 3] ⟨[], [], []⟩
    (by decide) (by decide) (by simp)
  exact ⟨h.2.1, h.2.2.2.1⟩

/-- C1 counterexample: for a payload of `2^32` bytes the `uint32(len(b))`
cast truncates, so the emitted leading 4 bytes decode to 0 and not to the
payload byte count — the claim's universal length correctness fails. -/
theorem writeChunkTo_length_truncates :
    readUint32 (((writeChunkTo [73, 72, 68, 82] (List.replicate (2 ^ 32) 0)
        ⟨[], [], []⟩).2.2.emitted).take 4) ≠ (List.replicate (2 ^ 32) 0).length := by
  have hlen : (List.replicate (2 ^ 32) (0 : Nat)).length = 2 ^ 32 :=
    List.length_replicate (2 ^ 32) 0
  have hmod : (List.replicate (2 ^ 32) (0 : Nat)).length % 2 ^ 32 = 0 := by
    rw [hlen]
    exact Nat.mod_self (2 ^ 32)
  have hhdr : chunkHeader [73, 72, 68, 82] (List.replicate (2 ^ 32) 0) =
      writeUint32 0 ++ tag4 [73, 72, 68, 82] := by
    unfold chunkHeader
    rw [hmod]
  have hok : ∀ o ∈ (⟨[], [], []⟩ : Writer).outcomes, o = WOutcome.ok := by
    intro o ho
    cases ho
  have hem := writeChunkTo_all_ok_emitted [73, 72, 68, 82] (List.replicate (2 ^ 32) 0)
    ⟨[], [], []⟩ hok
  rw [hem, hhdr]
  rw [show (⟨[], [], []⟩ : Writer).emitted = [] from rfl]
  rw [List.nil_append, List.append_assoc, List.append_assoc]
  rw [List.take_left' (show (writeUint32 0).length = 4 from rfl)]
  rw [readUint32_writeUint32 0 (by norm_num), hlen]
  intro hcontra
  omega

/-- C8: `writeChunkTo` issues its writes strictly in the order header,
payload, footer; when the `(i+1)`-st write is the first to fail (accepting
`k` bytes with error `e`), it stops immediately: no later write call is
issued, the error is returned as is, the reported count is the bytes of
the fully accepted earlier writes plus the accepted part of the failing
one, and the destination received exactly that prefix of the chunk. -/
theorem writeChunkTo_abort_on_error (name b : List Nat) (w : Writer) (i k e : Nat)
    (rest : List WOutcome)
    (ho : w.outcomes = List.replicate i WOutcome.ok ++ WOutcome.fail k e :: rest)
    (hi : i < 3) :
    (writeChunkTo name b w).2.1 = some e ∧
      (writeChunkTo name b w).2.2.calls = w.calls ++ (chunkCalls name b).take (i + 1) ∧
      (writeChunkTo name b w).1 =
        ((chunkCalls name b).take i).flatten.length +
          min k ((chunkCalls name b).getD i []).length ∧
      (writeChunkTo name b w).2.2.emitted =
        w.emitted ++ ((chunkCalls name b).take i).flatten ++
          ((chunkCalls name b).getD i []).take k ∧
      (writeChunkTo name b w).2.2.outcomes = rest := by
  obtain ⟨outs, calls, emitted⟩ := w
  simp only at ho
  subst ho
  interval_cases i
  · simp [writeChunkTo, wWrite, chunkCalls]
  · simp [writeChunkTo, wWrite, chunkCalls, List.append_assoc]
  · simp [writeChunkTo, wWrite, chunkCalls, List.append_assoc]

/-- Witness for C8: the second write (the payload) fails after one byte. -/
theorem writeChunkTo_abort_on_error_witness :
    (writeChunkTo [73, 72, 68, 82] [9, 9] ⟨[WOutcome.ok, WOutcome.fail 1 5], [], []⟩).2.1 =
        some 5 ∧
      (writeChunkTo [73, 72, 68, 82] [9, 9]
        ⟨[WOutcome.ok, WOutcome.fail 1 5], [], []⟩).2.2.outcomes = [] := by
  have h := writeChunkTo_abort_on_error [73, 72, 68, 82] [9, 9]
    ⟨[WOutcome.ok, WOutcome.fail 1 5], [], []⟩ 1 1 5 [] (by decide) (by decide)
  exact ⟨h.1, h.2.2.2.2⟩

theorem drop_take_map (l : List Nat) (a n : Nat) (h : a + n ≤ l.length) :
    (l.drop a).take n = (List.range n).map (fun i => l.getD (a + i) 0) := by
  apply List.ext_getElem
  · simp only [List.length_take, List.length_drop, List.length_map, List.length_range]
    omega
  · intro j h1 h2
    have hj : j < n := by
      simpa using h2
    have hjl : a + j < l.length := by omega
    rw [List.getElem_take, List.getElem_drop, List.getElem_map, List.getElem_range]
    rw [List.getD_eq_getElem l 0 hjl]

theorem flatMap_quad (n : Nat) (f : Nat → Nat) :
    ((List.range n).flatMap fun c => [f (c * 4), f (c * 4 + 1), f (c * 4 + 2), f (c * 4 + 3)]) =
      (List.range (n * 4)).map f := by
  induction n with
  | zero => simp
  | succ m ih =>
    rw [List.range_succ, List.flatMap_append, ih]
    have h4 : (m + 1) * 4 = m * 4 + 4 := by ring
    rw [h4, List.range_add, List.map_append, List.map_map]
    congr 1

/-- C10: for the 8-bit true-color+alpha layout, the fast verbatim row copy
from contiguous NRGBA storage produces exactly the bytes the generic
per-pixel fallback (sample, convert to non-premultiplied RGBA, emit
R,G,B,A) would produce for the same image and row, so path selection never
changes the emitted bytes. -/
theorem fastRow_eq_genericRow (img : NRGBAImage) (r : Nat)
    (h : r * img.stride + img.dx * 4 ≤ img.pix.length) :
    fastRowTCA8 img r = genericRowTCA8 img r := by
  unfold fastRowTCA8 genericRowTCA8 atNRGBA
  rw [drop_take_map img.pix (r * img.stride) (img.dx * 4) h]
  rw [← flatMap_quad img.dx (fun i => img.pix.getD (r * img.stride + i) 0)]
  apply List.flatMap_congr
  intro cx _
  simp [Nat.add_assoc]

/-- Witness for C10 on a 2-pixel-wide one-row image. -/
theorem fastRow_eq_genericRow_witness :
    fastRowTCA8 ⟨[1, 2, 3, 4, 5, 6, 7, 8], 8, 2⟩ 0 =
      genericRowTCA8 ⟨[1, 2, 3, 4, 5, 6, 7, 8], 8, 2⟩ 0 :=
  fastRow_eq_genericRow ⟨[1, 2, 3, 4, 5, 6, 7, 8], 8, 2⟩ 0 (by norm_num)

end Apng
